import Mathlib

/-!
Verification of the analysis pipeline of `src/app.py` (MEASURING-NETWORKS-ON-FACEBOOK).

The script builds an Erdős–Rényi graph with `networkx`, computes four
centralities, ranks the top-k nodes per metric, computes the graph energy
from the adjacency-matrix eigenvalues, and returns a report dictionary.
Below, the pure computational content of the script and of the library
routines it calls is embedded as Lean definitions, and the specification
claims are settled as theorems about those definitions.
-/

/-! ## Ranking (the core of `plot_topk`)

`plot_topk` runs `sorted(metric_dict.items(), key=lambda x: x[1], reverse=True)[:k]`.
Python's `sorted` is a stable sort, and with `reverse=True` elements that
compare equal still keep their original relative order; slicing `[:k]`
clamps to the available length.  We embed the stable descending sort as an
insertion sort: a new element is inserted after every element whose score
is `≥` its own. -/

/-- Insert a pair into a descending-sorted list, after all entries whose
score is at least its own (this is what makes the sort stable). -/
def insertDesc {α : Type} [LinearOrder α] (x : Nat × α) : List (Nat × α) → List (Nat × α)
  | [] => [x]
  | y :: ys => if y.2 < x.2 then x :: y :: ys else y :: insertDesc x ys

/-- Stable sort, descending by score: the embedding of
`sorted(items, key=lambda x: x[1], reverse=True)`. -/
def sortDesc {α : Type} [LinearOrder α] (l : List (Nat × α)) : List (Nat × α) :=
  l.foldl (fun acc x => insertDesc x acc) []

/-- The computational content of `plot_topk`:
`sorted(metric_dict.items(), key=lambda x: x[1], reverse=True)[:k]`. -/
def plotTopk {α : Type} [LinearOrder α] (l : List (Nat × α)) (k : Nat) : List (Nat × α) :=
  (sortDesc l).take k

/-- The intended order on ranked entries: strictly higher score first,
ties resolved by ascending node id. -/
def rankRel {α : Type} [LinearOrder α] (a b : Nat × α) : Prop :=
  b.2 < a.2 ∨ (a.2 = b.2 ∧ a.1 < b.1)

instance {α : Type} [LinearOrder α] : DecidableRel (rankRel (α := α)) := fun a b => by
  unfold rankRel; infer_instance

/-! ## The graph data model

`networkx` graphs produced by `erdos_renyi_graph(n, p, seed)` have nodes
`0 .. n-1` and a symmetric, loop-free adjacency relation. -/

/-- A finite simple undirected graph on nodes `0 .. n-1`. -/
structure Network where
  n : Nat
  adj : Fin n → Fin n → Bool
  symm : ∀ i j, adj i j = adj j i
  loopless : ∀ i, adj i i = false

/-- Build a `Network` from an arbitrary edge predicate by symmetrizing it
and removing loops. -/
def mkNetwork (n : Nat) (e : Fin n → Fin n → Bool) : Network where
  n := n
  adj := fun i j =>
    if i.val < j.val then e i j else if j.val < i.val then e j i else false
  symm := by
    intro i j
    rcases Nat.lt_trichotomy i.val j.val with h | h | h
    · simp [h, Nat.lt_asymm h]
    · simp [h, Nat.lt_irrefl]
    · simp [h, Nat.lt_asymm h]
  loopless := by intro i; simp

/-- The graph with all possible edges (what `gnp_random_graph` returns for
`p ≥ 1`, via `complete_graph`). -/
def completeNetwork (n : Nat) : Network := mkNetwork n (fun _ _ => true)

/-- The graph with no edges (what `gnp_random_graph` returns for `p ≤ 0`,
via `empty_graph`). -/
def emptyNetwork (n : Nat) : Network := mkNetwork n (fun _ _ => false)

/-- A graph has no edges at all. -/
def NoEdges (g : Network) : Prop := ∀ i j, g.adj i j = false

/-- A graph is complete: every pair of distinct nodes is adjacent. -/
def Complete (g : Network) : Prop := ∀ i j : Fin g.n, i ≠ j → g.adj i j = true

instance (g : Network) : Decidable (NoEdges g) := by unfold NoEdges; infer_instance
instance (g : Network) : Decidable (Complete g) := by unfold Complete; infer_instance

/-! ## Graph generation (`nx.erdos_renyi_graph`)

`erdos_renyi_graph` is an alias of `gnp_random_graph`, whose source reads:
`if p <= 0: return empty_graph(n)`, `if p >= 1: return complete_graph(n)`,
otherwise each pair of distinct nodes is joined when the next value of the
seeded random stream is `< p`.  Modelled from the spec: the "deterministic
pseudo-random sequence seeded by `seed`" (Python's Mersenne-Twister
`random()` stream, which is not part of this repository) is represented
abstractly by a seeded linear-congruential stream of rationals in
`[0, 1)`; every claim below depends only on the stream being a
deterministic function of the seed. -/

/-- One step of the modelling linear congruential generator. -/
def lcgStep (x : Nat) : Nat := (6364136223846793005 * x + 1442695040888963407) % (2 ^ 64)

/-- Modelled from the spec: the seeded pseudo-random sequence; `randFloat seed k`
is the `k`-th value drawn, a rational in `[0, 1)`. -/
def randFloat (seed k : Nat) : ℚ := ((lcgStep^[k + 1]) seed % (2 ^ 64) : Nat) / (2 ^ 64 : ℚ)

/-- The embedding of `nx.erdos_renyi_graph(n, p, seed)` (alias of
`gnp_random_graph`): `p ≤ 0` yields the empty graph, `p ≥ 1` the complete
graph, and otherwise the pair `(i, j)` is an edge when its draw from the
seeded stream is below `p`.  No input validation is performed. -/
def erdosRenyiGraph (n : Nat) (p : ℚ) (seed : Nat) : Network :=
  mkNetwork n (fun i j =>
    if p ≤ 0 then false
    else if 1 ≤ p then true
    else decide (randFloat seed (i.val * n + j.val) < p))

/-! ## Degree and degree centrality (`nx.degree_centrality`)

`networkx` source: for `len(G) <= 1` every node gets centrality `1`;
otherwise node `v` gets `deg(v) * (1 / (n - 1))`. -/

/-- The degree of a node: its number of neighbours. -/
def degreeOf (g : Network) (v : Fin g.n) : Nat :=
  (Finset.univ.filter (fun j => g.adj v j)).card

/-- The embedding of `nx.degree_centrality`. -/
def degreeCentrality (g : Network) (v : Fin g.n) : ℚ :=
  if g.n ≤ 1 then 1 else (degreeOf g v : ℚ) / ((g.n : ℚ) - 1)

/-! ## Shortest-path distances (breadth-first search)

`nx.closeness_centrality` and `nx.betweenness_centrality` are built on
unweighted single-source shortest-path lengths.  We compute them by `n`
rounds of edge relaxation; `none` means unreachable. -/

/-- Minimum of two optional distances, with `none` as infinity. -/
def omin : Option Nat → Option Nat → Option Nat
  | none, b => b
  | some a, none => some a
  | some a, some b => some (min a b)

/-- One relaxation sweep: each node keeps the better of its current
distance and one step beyond each neighbour's current distance. -/
def relaxStep (g : Network) (d : Fin g.n → Option Nat) : Fin g.n → Option Nat :=
  fun i =>
    ((List.finRange g.n).map
      (fun j => if g.adj i j then (d j).map (· + 1) else none)).foldl omin (d i)

/-- Single-source shortest path lengths from `s`, via `g.n` relaxation
sweeps (enough for any shortest path in a graph on `g.n` nodes). -/
def spLengths (g : Network) (s : Fin g.n) : Fin g.n → Option Nat :=
  (relaxStep g)^[g.n] (fun i => if i = s then some 0 else none)

/-- Number of nodes reachable from `s` (including `s` itself):
`len(sp)` in the `networkx` closeness source. -/
def reachCount (g : Network) (s : Fin g.n) : Nat :=
  (Finset.univ.filter (fun i => spLengths g s i ≠ none)).card

/-- Total shortest-path distance from `s` to its reachable nodes:
`totsp = sum(sp.values())` in the `networkx` closeness source. -/
def totalDist (g : Network) (s : Fin g.n) : Nat :=
  ∑ i, (spLengths g s i).getD 0

/-- The embedding of `nx.closeness_centrality` (default
`wf_improved=True`): `(r - 1) / totsp` scaled by `(r - 1) / (n - 1)` where
`r` counts the reachable nodes, and `0` when `totsp = 0` or `n ≤ 1`. -/
def closenessCentrality (g : Network) (v : Fin g.n) : ℚ :=
  let r := reachCount g v
  let tot := totalDist g v
  if 0 < tot ∧ 1 < g.n then
    (((r : ℚ) - 1) / (tot : ℚ)) * (((r : ℚ) - 1) / ((g.n : ℚ) - 1))
  else 0

/-! ## Betweenness centrality (`nx.betweenness_centrality`)

Brandes' algorithm with fractional path counting; its result is the
textbook quantity `sum over pairs (s,t) of sigma_st(v) / sigma_st`, which
we embed directly.  Shortest paths are counted layer by layer over the BFS
distances. -/

/-- `countSPAux g d k t` is the number of shortest paths (with respect to
the single-source distance map `d`) from the source to `t`, provided
`d t = some k`; `0` otherwise. -/
def countSPAux (g : Network) (d : Fin g.n → Option Nat) : Nat → Fin g.n → Nat
  | 0, t => if d t = some 0 then 1 else 0
  | k + 1, t =>
    if d t = some (k + 1) then
      ∑ j ∈ Finset.univ.filter (fun j => g.adj t j ∧ d j = some k),
        countSPAux g d k j
    else 0

/-- `sigma g s t`: the number of shortest paths from `s` to `t`
(`0` when `t` is unreachable from `s`). -/
def sigma (g : Network) (s t : Fin g.n) : Nat :=
  match spLengths g s t with
  | none => 0
  | some k => countSPAux g (spLengths g s) k t

/-- The fraction of shortest `s`–`t` paths passing through the interior
node `v`: `sigma_st(v) / sigma_st`, and `0` for degenerate pairs or
unreachable `t`. -/
def pairDependency (g : Network) (v s t : Fin g.n) : ℚ :=
  if s = v ∨ t = v ∨ s = t then 0
  else
    match spLengths g s t, spLengths g s v, spLengths g v t with
    | some dst, some dsv, some dvt =>
      if dsv + dvt = dst then
        ((sigma g s v * sigma g v t : Nat) : ℚ) / ((sigma g s t : Nat) : ℚ)
      else 0
    | _, _, _ => 0

/-- The embedding of `nx.betweenness_centrality` (defaults
`normalized=True`, `endpoints=False`): the sum of pair dependencies over
all ordered pairs, rescaled by `1 / ((n - 1) * (n - 2))` when `n > 2`
(each unordered pair is counted twice, giving the `2 / ((n-1)(n-2))`
normalization of the undirected case); for `n ≤ 2` no rescaling is done. -/
def betweennessCentrality (g : Network) (v : Fin g.n) : ℚ :=
  let raw := ∑ s, ∑ t, pairDependency g v s t
  if 2 < g.n then raw / (((g.n : ℚ) - 1) * ((g.n : ℚ) - 2)) else raw

/-! ## Spectral analysis (`nx.to_numpy_array`, `np.linalg.eigvals`)

Lines 63–65 of `src/app.py` build the 0/1 adjacency matrix, take its
eigenvalues, and sum their absolute values.  As the matrix is real
symmetric its eigenvalues are real; we use Mathlib's eigenvalues of a
Hermitian matrix. -/

/-- The embedding of `A = nx.to_numpy_array(G)`: the 0/1 adjacency
matrix. -/
noncomputable def adjMatrix (g : Network) : Matrix (Fin g.n) (Fin g.n) ℝ :=
  Matrix.of fun i j => if g.adj i j then 1 else 0

theorem adjMatrix_isHermitian (g : Network) : (adjMatrix g).IsHermitian := by
  ext i j
  simp [adjMatrix, Matrix.conjTranspose_apply, g.symm i j]

/-- The eigenvalues of the adjacency matrix (the embedding of
`eigenvals = np.linalg.eigvals(A)`, real since `A` is symmetric). -/
noncomputable def eigenvals (g : Network) : Fin g.n → ℝ :=
  (adjMatrix_isHermitian g).eigenvalues

/-- The embedding of `graph_energy = np.sum(np.abs(eigenvals))`. -/
noncomputable def graphEnergy (g : Network) : ℝ := ∑ i, |eigenvals g i|

/-- The multiset of adjacency eigenvalues (order forgotten). -/
noncomputable def eigenvalsMultiset (g : Network) : Multiset ℝ :=
  Finset.univ.val.map (eigenvals g)

/-- The values plotted by the spectrum chart,
`sorted(np.abs(eigenvals), reverse=True)`: the absolute values of the
eigenvalues (as a multiset; the plot lists them in descending order). -/
noncomputable def spectrumSeries (g : Network) : Multiset ℝ :=
  Finset.univ.val.map (fun i => |eigenvals g i|)

/-! ## Eigenvector centrality (`nx.eigenvector_centrality_numpy`)

The library routine returns the eigenvector for the dominant (largest
magnitude) adjacency eigenvalue, normalized to unit Euclidean norm with
positive orientation; it fails when this is not well defined.  Modelled
from the spec (§4.2, the routine's code is the external `networkx`/`scipy`
library, not part of this repository): "the entrywise-positive eigenvector
associated with the adjacency matrix's largest-magnitude eigenvalue,
normalized so that the sum of squares of entries equals 1; fails with
NonConvergence/illDefined if the graph has no unique dominant
eigenvector". -/

/-- `μ` is an eigenvalue of the real matrix `M`. -/
def IsEigenvalue {m : Nat} (M : Matrix (Fin m) (Fin m) ℝ) (μ : ℝ) : Prop :=
  ∃ v : Fin m → ℝ, v ≠ 0 ∧ M.mulVec v = μ • v

/-- `v` is the entrywise-positive, sum-of-squares-one eigenvector of the
adjacency matrix for an eigenvalue of largest magnitude. -/
def EigCentProp (g : Network) (v : Fin g.n → ℝ) : Prop :=
  ∃ μ : ℝ, IsEigenvalue (adjMatrix g) μ ∧
    (∀ ν : ℝ, IsEigenvalue (adjMatrix g) ν → |ν| ≤ |μ|) ∧
    (adjMatrix g).mulVec v = μ • v ∧ (∀ i, 0 < v i) ∧ ∑ i, v i ^ 2 = 1

/-- Errors a run of `analyze_network` can abort with. -/
inductive PipeError
  | invalidParameter
  | illDefined
  | emptySequence
  deriving DecidableEq

/-- Modelled from the spec: eigenvector centrality returns the unique
vector with `EigCentProp` when it exists and fails with `illDefined`
otherwise. -/
noncomputable def eigenvectorCentrality (g : Network) :
    Except PipeError (Fin g.n → ℝ) :=
  open Classical in
  if h : ∃! v : Fin g.n → ℝ, EigCentProp g v then .ok (Classical.choose h.exists)
  else .error .illDefined

/-! ## The pipeline (`analyze_network`)

The computational skeleton of `analyze_network`, in source order:
generate the graph (line 15), compute the four centralities (lines 31–34,
where the eigenvector computation may fail), take `min`/`max` of the
degree list for the histogram (line 39, where Python's `min`/`max` raise
`ValueError` on an empty sequence), rank the top 10 per metric
(lines 57–60), compute the energy (lines 63–65), and return the
dictionary of the four `[:5]` slices and the energy (lines 81–87).
Plotting and printing have no effect on the returned data and are
omitted. -/

/-- Python's `min` on a list, which raises `ValueError` on an empty
sequence. -/
def pyMin (l : List Nat) : Except PipeError Nat :=
  match l with
  | [] => .error .emptySequence
  | x :: xs => .ok (xs.foldl min x)

/-- Python's `max` on a list, which raises `ValueError` on an empty
sequence. -/
def pyMax (l : List Nat) : Except PipeError Nat :=
  match l with
  | [] => .error .emptySequence
  | x :: xs => .ok (xs.foldl max x)

/-- A centrality mapping as the list of `(node, score)` items in the
dictionary's natural iteration order (node insertion order `0 .. n-1`). -/
def centItems {α : Type} (g : Network) (c : Fin g.n → α) : List (Nat × α) :=
  (List.finRange g.n).map (fun v => (v.val, c v))

/-- The dictionary returned by `analyze_network` (lines 81–87): the four
`[:5]` slices of the top-10 lists, and the energy scalar. -/
structure AnalysisReport where
  degree : List (Nat × ℚ)
  closeness : List (Nat × ℚ)
  betweenness : List (Nat × ℚ)
  eigenvector : List (Nat × ℝ)
  energy : ℝ

/-- The analysis pipeline applied to an already-generated graph. -/
noncomputable def reportOfGraph (g : Network) : Except PipeError AnalysisReport := do
  let degCent := centItems g (degreeCentrality g)
  let closeCent := centItems g (closenessCentrality g)
  let betwCent := centItems g (betweennessCentrality g)
  let ev ← eigenvectorCentrality g
  let eigCent := centItems g ev
  let degrees := (List.finRange g.n).map (fun v => degreeOf g v)
  let _ ← pyMin degrees
  let _ ← pyMax degrees
  let topDegree := plotTopk degCent 10
  let topClose := plotTopk closeCent 10
  let topBetw := plotTopk betwCent 10
  let topEig := plotTopk eigCent 10
  pure { degree := topDegree.take 5
         closeness := topClose.take 5
         betweenness := topBetw.take 5
         eigenvector := topEig.take 5
         energy := graphEnergy g }

/-- The embedding of `analyze_network(n, p, seed)`. -/
noncomputable def analyzeNetwork (n : Nat) (p : ℚ) (seed : Nat) :
    Except PipeError AnalysisReport :=
  reportOfGraph (erdosRenyiGraph n p seed)

/-! ## Lemmas about the stable descending sort -/

theorem mem_insertDesc {α : Type} [LinearOrder α] {x a : Nat × α} :
    ∀ {l : List (Nat × α)}, a ∈ insertDesc x l ↔ a = x ∨ a ∈ l := by
  intro l
  induction l with
  | nil => simp [insertDesc]
  | cons y ys ih =>
    by_cases h : y.2 < x.2
    · simp [insertDesc, h]
    · simp only [insertDesc, if_neg h, List.mem_cons, ih]
      tauto

theorem length_insertDesc {α : Type} [LinearOrder α] (x : Nat × α) :
    ∀ (l : List (Nat × α)), (insertDesc x l).length = l.length + 1 := by
  intro l
  induction l with
  | nil => rfl
  | cons y ys ih =>
    by_cases h : y.2 < x.2
    · simp [insertDesc, h]
    · simp [insertDesc, h, ih]

theorem insertDesc_perm {α : Type} [LinearOrder α] (x : Nat × α) :
    ∀ (l : List (Nat × α)), List.Perm (insertDesc x l) (x :: l) := by
  intro l
  induction l with
  | nil => simp [insertDesc]
  | cons y ys ih =>
    by_cases h : y.2 < x.2
    · simp [insertDesc, h]
    · simpa [insertDesc, h] using
        ((ih.cons y).trans (List.Perm.swap x y ys)).symm.symm

theorem insertDesc_pairwise {α : Type} [LinearOrder α] {x : Nat × α} :
    ∀ {l : List (Nat × α)}, l.Pairwise rankRel →
      (∀ a ∈ l, a.2 = x.2 → a.1 < x.1) → (insertDesc x l).Pairwise rankRel := by
  intro l
  induction l with
  | nil => intro _ _; simp [insertDesc]
  | cons y ys ih =>
    intro hp hties
    rcases List.pairwise_cons.mp hp with ⟨hy, hys⟩
    by_cases h : y.2 < x.2
    · unfold insertDesc
      rw [if_pos h]
      refine List.pairwise_cons.mpr ⟨?_, hp⟩
      intro z hz
      rcases List.mem_cons.mp hz with rfl | hz
      · exact Or.inl h
      · rcases hy z hz with hlt | ⟨heq, _⟩
        · exact Or.inl (hlt.trans h)
        · exact Or.inl (heq ▸ h)
    · unfold insertDesc
      rw [if_neg h]
      refine List.pairwise_cons.mpr ⟨?_, ?_⟩
      · intro z hz
        rcases mem_insertDesc.mp hz with rfl | hz
        · rcases lt_or_eq_of_le (le_of_not_lt h) with hlt | heq
          · exact Or.inl hlt
          · exact Or.inr ⟨heq.symm, hties y (List.mem_cons_self y ys) heq.symm⟩
        · exact hy z hz
      · exact ih hys (fun a ha => hties a (List.mem_cons_of_mem y ha))

theorem foldl_insertDesc_length {α : Type} [LinearOrder α] :
    ∀ (l acc : List (Nat × α)),
      (l.foldl (fun acc x => insertDesc x acc) acc).length = l.length + acc.length := by
  intro l
  induction l with
  | nil => intro acc; simp
  | cons x xs ih =>
    intro acc
    simp only [List.foldl_cons, ih, length_insertDesc, List.length_cons]
    omega

theorem foldl_insertDesc_perm {α : Type} [LinearOrder α] :
    ∀ (l acc : List (Nat × α)),
      List.Perm (l.foldl (fun acc x => insertDesc x acc) acc) (l ++ acc) := by
  intro l
  induction l with
  | nil => intro acc; simp
  | cons x xs ih =>
    intro acc
    exact (ih (insertDesc x acc)).trans
      ((List.Perm.append_left xs (insertDesc_perm x acc)).trans List.perm_middle)

theorem foldl_insertDesc_pairwise {α : Type} [LinearOrder α] :
    ∀ (l acc : List (Nat × α)), acc.Pairwise rankRel →
      (∀ a ∈ acc, ∀ b ∈ l, a.1 < b.1) →
      l.Pairwise (fun a b : Nat × α => a.1 < b.1) →
      (l.foldl (fun acc x => insertDesc x acc) acc).Pairwise rankRel := by
  intro l
  induction l with
  | nil => intro acc h _ _; simpa using h
  | cons x xs ih =>
    intro acc hacc hcross hl
    rcases List.pairwise_cons.mp hl with ⟨hx, hxs⟩
    refine ih (insertDesc x acc) ?_ ?_ hxs
    · exact insertDesc_pairwise hacc
        (fun a ha _ => hcross a ha x (List.mem_cons_self x xs))
    · intro a ha b hb
      rcases mem_insertDesc.mp ha with rfl | ha
      · exact hx b hb
      · exact hcross a ha b (List.mem_cons_of_mem x hb)

theorem sortDesc_length {α : Type} [LinearOrder α] (l : List (Nat × α)) :
    (sortDesc l).length = l.length := by
  simpa [sortDesc] using foldl_insertDesc_length l []

theorem sortDesc_perm {α : Type} [LinearOrder α] (l : List (Nat × α)) :
    List.Perm (sortDesc l) l := by
  simpa [sortDesc] using foldl_insertDesc_perm l []

theorem sortDesc_pairwise {α : Type} [LinearOrder α] {l : List (Nat × α)}
    (hl : l.Pairwise (fun a b : Nat × α => a.1 < b.1)) :
    (sortDesc l).Pairwise rankRel :=
  foldl_insertDesc_pairwise l [] (List.Pairwise.nil) (by simp) hl

/-- **C1.** For every score mapping (its items listed in natural iteration
order, so with strictly ascending node ids) and every positive `k`, the
top-k operation of `plot_topk` returns pairs drawn from the mapping, of
length `min k (number of entries)` (clamping instead of erroring when `k`
exceeds the size), sorted descending by score with ties in ascending
node-id order. -/
theorem plotTopk_ranking_spec {α : Type} [LinearOrder α] (l : List (Nat × α)) (k : Nat)
    (_hk : 0 < k) (hids : l.Pairwise (fun a b : Nat × α => a.1 < b.1)) :
    (plotTopk l k).length = min k l.length ∧
    (plotTopk l k).Pairwise rankRel ∧
    ∀ x ∈ plotTopk l k, x ∈ l := by
  refine ⟨?_, ?_, ?_⟩
  · simp [plotTopk, List.length_take, sortDesc_length]
  · exact List.Pairwise.sublist (List.take_sublist _ _) (sortDesc_pairwise hids)
  · intro x hx
    exact (sortDesc_perm l).subset (List.take_subset _ _ hx)

/-- Witness for C1 at a concrete mapping with a tie: nodes 0 and 2 share
the top score. -/
theorem plotTopk_ranking_spec_witness :
    (0 < 2 ∧
      ([((0 : Nat), (5 : ℚ)), (1, 2), (2, 5)].Pairwise
        (fun a b : Nat × ℚ => a.1 < b.1))) ∧
    ((plotTopk [((0 : Nat), (5 : ℚ)), (1, 2), (2, 5)] 2).length =
        min 2 ([((0 : Nat), (5 : ℚ)), (1, 2), (2, 5)].length) ∧
      (plotTopk [((0 : Nat), (5 : ℚ)), (1, 2), (2, 5)] 2).Pairwise rankRel ∧
      ∀ x ∈ plotTopk [((0 : Nat), (5 : ℚ)), (1, 2), (2, 5)] 2,
        x ∈ [((0 : Nat), (5 : ℚ)), (1, 2), (2, 5)]) :=
  ⟨⟨by decide, by decide⟩, plotTopk_ranking_spec _ 2 (by decide) (by decide)⟩

/-- **C9.** Taking the first 5 of the top-10 ranking gives exactly the
top-5 ranking, and the top-5 list is a prefix of the top-10 list. -/
theorem take5_plotTopk10_eq_plotTopk5 {α : Type} [LinearOrder α] (l : List (Nat × α)) :
    (plotTopk l 10).take 5 = plotTopk l 5 ∧ plotTopk l 5 <+: plotTopk l 10 := by
  have h : (plotTopk l 10).take 5 = plotTopk l 5 := by
    simp [plotTopk, List.take_take]
  exact ⟨h, h ▸ List.take_prefix _ _⟩

/-! ## Degree centrality: claim C5 -/

theorem not_adj_self {g : Network} (v : Fin g.n) : ¬ g.adj v v = true := by
  simp [g.loopless v]

theorem degreeOf_le (g : Network) (v : Fin g.n) : degreeOf g v ≤ g.n - 1 := by
  have hsub : Finset.univ.filter (fun j => g.adj v j) ⊆ Finset.univ.erase v := by
    intro j hj
    rcases Finset.mem_filter.mp hj with ⟨_, hadj⟩
    refine Finset.mem_erase.mpr ⟨?_, Finset.mem_univ j⟩
    rintro rfl
    exact not_adj_self _ hadj
  calc degreeOf g v ≤ (Finset.univ.erase v).card := Finset.card_le_card hsub
    _ = g.n - 1 := by simp [Finset.card_erase_of_mem]

theorem degreeOf_complete {g : Network} (hC : Complete g) (v : Fin g.n) :
    degreeOf g v = g.n - 1 := by
  have : Finset.univ.filter (fun j => g.adj v j) = Finset.univ.erase v := by
    ext j
    simp only [Finset.mem_filter, Finset.mem_univ, true_and, Finset.mem_erase, and_true]
    constructor
    · intro hadj
      rintro rfl
      exact not_adj_self _ hadj
    · intro hne
      exact hC v j (fun h => hne (h.symm))
  simp [degreeOf, this, Finset.card_erase_of_mem]

/-- **C5.** For `n ≥ 2`, degree centrality is `deg(v) / (n - 1)`, every
value lies in `[0, 1]`, and in a complete graph every value is `1`. -/
theorem degreeCentrality_spec (g : Network) (hn : 2 ≤ g.n) :
    (∀ v, degreeCentrality g v = (degreeOf g v : ℚ) / ((g.n : ℚ) - 1)) ∧
    (∀ v, 0 ≤ degreeCentrality g v ∧ degreeCentrality g v ≤ 1) ∧
    (Complete g → ∀ v, degreeCentrality g v = 1) := by
  have hn1 : ¬ g.n ≤ 1 := by omega
  have hpos : (0 : ℚ) < (g.n : ℚ) - 1 := by
    have : (2 : ℚ) ≤ (g.n : ℚ) := by exact_mod_cast hn
    linarith
  have hcast : ((g.n - 1 : Nat) : ℚ) = (g.n : ℚ) - 1 := by
    have : 1 ≤ g.n := by omega
    push_cast [Nat.cast_sub this]
    ring
  refine ⟨fun v => by simp [degreeCentrality, hn1], fun v => ⟨?_, ?_⟩, fun hC v => ?_⟩
  · simp only [degreeCentrality, if_neg hn1]
    positivity
  · simp only [degreeCentrality, if_neg hn1]
    rw [div_le_one hpos, ← hcast]
    exact_mod_cast degreeOf_le g v
  · simp only [degreeCentrality, if_neg hn1, degreeOf_complete hC v, hcast]
    field_simp

/-- Witness for C5 at the complete graph on 3 nodes. -/
theorem degreeCentrality_spec_witness :
    (2 ≤ (completeNetwork 3).n ∧ Complete (completeNetwork 3)) ∧
    (∀ v, degreeCentrality (completeNetwork 3) v = 1) :=
  ⟨⟨by decide, by decide⟩,
    (degreeCentrality_spec (completeNetwork 3) (by decide)).2.2 (by decide)⟩

/-! ## Graph generation: claims C3 and C6 -/

/-- For `p ≥ 1` the generator returns the complete graph (the
`if p >= 1: return complete_graph(n)` branch of `gnp_random_graph`). -/
theorem erdosRenyi_complete {p : ℚ} (hp : 1 ≤ p) (n seed : Nat) :
    erdosRenyiGraph n p seed = completeNetwork n := by
  unfold erdosRenyiGraph completeNetwork
  have h0 : ¬ p ≤ 0 := by linarith
  exact congrArg (mkNetwork n) (by funext i j; rw [if_neg h0, if_pos hp])

/-- For `p ≤ 0` the generator returns the edgeless graph (the
`if p <= 0: return empty_graph(n)` branch of `gnp_random_graph`). -/
theorem erdosRenyi_empty {p : ℚ} (hp : p ≤ 0) (n seed : Nat) :
    erdosRenyiGraph n p seed = emptyNetwork n := by
  unfold erdosRenyiGraph emptyNetwork
  exact congrArg (mkNetwork n) (by funext i j; rw [if_pos hp])

theorem emptyNetwork_noEdges (n : Nat) : NoEdges (emptyNetwork n) := by
  intro i j
  unfold emptyNetwork mkNetwork
  dsimp only
  split <;> simp

theorem completeNetwork_complete (n : Nat) : Complete (completeNetwork n) := by
  intro i j hij
  unfold completeNetwork mkNetwork
  dsimp only
  rcases Nat.lt_trichotomy i.val j.val with h | h | h
  · simp [h]
  · exact absurd (Fin.ext h) hij
  · simp [h, Nat.lt_asymm h]

/-- **C3.** The pipeline is deterministic in `(n, p, seed)`: the generated
graph and the full analysis result are functions of the three parameters
alone — in particular two runs whose seeds produce the same random stream
(so certainly two runs with the same seed) yield identical edge sets and
identical reports. -/
theorem analyzeNetwork_deterministic (n : Nat) (p : ℚ) (s1 s2 : Nat)
    (h : ∀ k, randFloat s1 k = randFloat s2 k) :
    erdosRenyiGraph n p s1 = erdosRenyiGraph n p s2 ∧
    analyzeNetwork n p s1 = analyzeNetwork n p s2 := by
  have hg : erdosRenyiGraph n p s1 = erdosRenyiGraph n p s2 := by
    unfold erdosRenyiGraph
    exact congrArg (mkNetwork n) (by funext i j; rw [h])
  exact ⟨hg, by unfold analyzeNetwork; rw [hg]⟩

/-- Witness for C3: two runs with seed 7 at `n = 10`, `p = 0.3`. -/
theorem analyzeNetwork_deterministic_witness :
    (∀ k, randFloat 7 k = randFloat 7 k) ∧
    (erdosRenyiGraph 10 (3/10) 7 = erdosRenyiGraph 10 (3/10) 7 ∧
      analyzeNetwork 10 (3/10) 7 = analyzeNetwork 10 (3/10) 7) :=
  ⟨fun _ => rfl, analyzeNetwork_deterministic 10 (3/10) 7 7 (fun _ => rfl)⟩

/-! ## Spectral lemmas -/

/-- The all-ones matrix, used to analyse complete graphs. -/
noncomputable def onesMatrix (n : Nat) : Matrix (Fin n) (Fin n) ℝ :=
  Matrix.of fun _ _ => 1

theorem onesMatrix_mul_self (n : Nat) :
    onesMatrix n * onesMatrix n = (n : ℝ) • onesMatrix n := by
  ext i j
  simp [onesMatrix, Matrix.mul_apply]

theorem complete_adj_iff {g : Network} (hC : Complete g) (i j : Fin g.n) :
    g.adj i j = true ↔ i ≠ j := by
  constructor
  · intro h heq
    subst heq
    simp [g.loopless i] at h
  · exact hC i j

theorem adjMatrix_of_complete {g : Network} (hC : Complete g) :
    adjMatrix g = onesMatrix g.n - 1 := by
  ext i j
  rw [Matrix.sub_apply, Matrix.one_apply]
  by_cases h : i = j
  · subst h
    simp [adjMatrix, g.loopless i, onesMatrix]
  · simp [adjMatrix, (complete_adj_iff hC i j).mpr h, onesMatrix, h]

/-- In a complete graph the adjacency matrix satisfies
`A² = (n-2)·A + (n-1)·I`. -/
theorem adjMatrix_complete_sq {g : Network} (hC : Complete g) :
    adjMatrix g * adjMatrix g =
      ((g.n : ℝ) - 2) • adjMatrix g +
        ((g.n : ℝ) - 1) • (1 : Matrix (Fin g.n) (Fin g.n) ℝ) := by
  rw [adjMatrix_of_complete hC]
  have h1 : (onesMatrix g.n - 1) * (onesMatrix g.n - 1) =
      onesMatrix g.n * onesMatrix g.n - onesMatrix g.n - onesMatrix g.n + 1 := by
    noncomm_ring
  rw [h1, onesMatrix_mul_self]
  module

theorem completeAdj_mulVec {g : Network} (hC : Complete g) (v : Fin g.n → ℝ)
    (i : Fin g.n) : (adjMatrix g).mulVec v i = (∑ k, v k) - v i := by
  rw [adjMatrix_of_complete hC, Matrix.sub_mulVec, Matrix.one_mulVec]
  simp [onesMatrix, Matrix.mulVec, Matrix.dotProduct]

theorem adjMatrix_noEdges {g : Network} (h : NoEdges g) : adjMatrix g = 0 := by
  ext i j
  simp [adjMatrix, h i j]

theorem adjMatrix_trace (g : Network) : (adjMatrix g).trace = 0 := by
  unfold Matrix.trace
  simp [Matrix.diag, adjMatrix, g.loopless]

/-- Each entry of `eigenvals g` really is an eigenvalue of the adjacency
matrix. -/
theorem isEigenvalue_eigenvals (g : Network) (j : Fin g.n) :
    IsEigenvalue (adjMatrix g) (eigenvals g j) := by
  have hA := adjMatrix_isHermitian g
  refine ⟨⇑(hA.eigenvectorBasis j), ?_, hA.mulVec_eigenvectorBasis j⟩
  have h := hA.eigenvectorBasis.orthonormal.ne_zero j
  intro h0
  apply h
  ext i
  exact congrFun h0 i

/-- If `A² = b·A + c·I` then every eigenvalue `μ` of `A` satisfies
`μ² = b·μ + c`. -/
theorem eigenvalue_quadratic {m : Nat} {M : Matrix (Fin m) (Fin m) ℝ} {b c : ℝ}
    (h : M * M = b • M + c • (1 : Matrix (Fin m) (Fin m) ℝ)) {μ : ℝ}
    (hμ : IsEigenvalue M μ) : μ ^ 2 = b * μ + c := by
  obtain ⟨v, hv, hMv⟩ := hμ
  have h2 : (M * M).mulVec v = (μ ^ 2) • v := by
    rw [← Matrix.mulVec_mulVec, hMv, Matrix.mulVec_smul, hMv, smul_smul]
    ring_nf
  have h3 : (M * M).mulVec v = (b * μ + c) • v := by
    rw [h, Matrix.add_mulVec, Matrix.smul_mulVec_assoc, hMv, Matrix.smul_mulVec_assoc,
      Matrix.one_mulVec, smul_smul, add_smul]
  have h4 : (μ ^ 2 - (b * μ + c)) • v = 0 := by
    rw [sub_smul, ← h2, ← h3, sub_self]
  rcases smul_eq_zero.mp h4 with h5 | h5
  · linarith [h5]
  · exact absurd h5 hv

/-- The sum of the adjacency eigenvalues is the trace of the adjacency
matrix. -/
theorem sum_eigenvals_eq_trace (g : Network) :
    ∑ j, eigenvals g j = (adjMatrix g).trace := by
  have hA := adjMatrix_isHermitian g
  have ht := congrArg Matrix.trace hA.spectral_theorem
  rw [Matrix.trace_mul_cycle] at ht
  rw [ht,
    show (star (hA.eigenvectorUnitary : Matrix (Fin g.n) (Fin g.n) ℝ)) *
        (hA.eigenvectorUnitary : Matrix (Fin g.n) (Fin g.n) ℝ) = 1 from
      unitary.coe_star_mul_self _,
    one_mul, Matrix.trace_diagonal]
  simp [eigenvals, Function.comp]

/-- All adjacency eigenvalues of an edgeless graph vanish. -/
theorem eigenvals_noEdges {g : Network} (h : NoEdges g) (j : Fin g.n) :
    eigenvals g j = 0 := by
  obtain ⟨v, hv, hMv⟩ := isEigenvalue_eigenvals g j
  rw [adjMatrix_noEdges h, Matrix.zero_mulVec] at hMv
  rcases smul_eq_zero.mp hMv.symm with h5 | h5
  · exact h5
  · exact absurd h5 hv

/-- **C2.** The spectral step builds the symmetric, zero-diagonal, 0/1
adjacency matrix; the energy is the sum of the absolute values of its
eigenvalues, hence non-negative for every graph, and zero for a graph
with no edges. -/
theorem graphEnergy_spec (g : Network) :
    (∀ i, adjMatrix g i i = 0) ∧
    (∀ i j, adjMatrix g i j = adjMatrix g j i) ∧
    (∀ i j, adjMatrix g i j = 0 ∨ adjMatrix g i j = 1) ∧
    graphEnergy g = ∑ i, |eigenvals g i| ∧
    0 ≤ graphEnergy g ∧
    (NoEdges g → graphEnergy g = 0) := by
  refine ⟨fun i => by simp [adjMatrix, g.loopless i],
    fun i j => by simp [adjMatrix, g.symm i j],
    fun i j => ?_, rfl, ?_, fun h => ?_⟩
  · by_cases h : g.adj i j <;> simp [adjMatrix, h]
  · exact Finset.sum_nonneg (fun i _ => abs_nonneg _)
  · simp [graphEnergy, eigenvals_noEdges h]

/-- Witness for C2: the edgeless graph on two nodes has energy 0. -/
theorem graphEnergy_spec_witness :
    NoEdges (emptyNetwork 2) ∧
    (0 ≤ graphEnergy (emptyNetwork 2) ∧ graphEnergy (emptyNetwork 2) = 0) :=
  ⟨by decide,
    (graphEnergy_spec (emptyNetwork 2)).2.2.2.2.1,
    (graphEnergy_spec (emptyNetwork 2)).2.2.2.2.2 (by decide)⟩

/-! ## Complete graphs: spectral facts for claims C8, C4 and C6 -/

theorem eigenvals_complete_dichotomy {g : Network} (hC : Complete g) (j : Fin g.n) :
    eigenvals g j = (g.n : ℝ) - 1 ∨ eigenvals g j = -1 := by
  have hq := eigenvalue_quadratic (adjMatrix_complete_sq hC) (isEigenvalue_eigenvals g j)
  have hf : (eigenvals g j - ((g.n : ℝ) - 1)) * (eigenvals g j + 1) = 0 := by
    linear_combination hq
  rcases mul_eq_zero.mp hf with h | h
  · exact Or.inl (by linarith)
  · exact Or.inr (by linarith)

theorem graphEnergy_complete {g : Network} (hC : Complete g) (hn : 1 ≤ g.n) :
    graphEnergy g = 2 * ((g.n : ℝ) - 1) := by
  have hnR : (1 : ℝ) ≤ (g.n : ℝ) := by exact_mod_cast hn
  have hn0 : (g.n : ℝ) ≠ 0 := by linarith
  have key : ∀ j, |eigenvals g j| =
      (((g.n : ℝ) - 2) / (g.n : ℝ)) * eigenvals g j + (2 * (g.n : ℝ) - 2) / (g.n : ℝ) := by
    intro j
    rcases eigenvals_complete_dichotomy hC j with h | h
    · rw [h, abs_of_nonneg (by linarith)]
      field_simp
      ring
    · rw [h]
      rw [show |(-1 : ℝ)| = 1 by norm_num]
      field_simp
      ring
  unfold graphEnergy
  rw [Finset.sum_congr rfl (fun j _ => key j)]
  rw [Finset.sum_add_distrib, ← Finset.mul_sum, sum_eigenvals_eq_trace, adjMatrix_trace,
    mul_zero, zero_add, Finset.sum_const, Finset.card_univ, Fintype.card_fin,
    nsmul_eq_mul]
  field_simp
  ring

theorem complete_isEigenvalue_top {g : Network} (hC : Complete g) (hn : 2 ≤ g.n) :
    IsEigenvalue (adjMatrix g) ((g.n : ℝ) - 1) := by
  refine ⟨fun _ => 1, ?_, ?_⟩
  · intro h0
    have h1 := congrFun h0 ⟨0, by omega⟩
    norm_num at h1
  · funext i
    rw [completeAdj_mulVec hC _ i]
    simp [Finset.sum_const, Finset.card_univ]

theorem eigCentProp_complete_const {g : Network} (hC : Complete g) (hn : 2 ≤ g.n) :
    EigCentProp g (fun _ => (Real.sqrt g.n)⁻¹) := by
  have hnR : (2 : ℝ) ≤ (g.n : ℝ) := by exact_mod_cast hn
  have hs : 0 < Real.sqrt g.n := Real.sqrt_pos.mpr (by linarith)
  have hsq : Real.sqrt g.n ^ 2 = (g.n : ℝ) := Real.sq_sqrt (by linarith)
  refine ⟨(g.n : ℝ) - 1, complete_isEigenvalue_top hC hn, ?_, ?_, ?_, ?_⟩
  · intro ν hν
    have hd := eigenvalue_quadratic (adjMatrix_complete_sq hC) hν
    have hf : (ν - ((g.n : ℝ) - 1)) * (ν + 1) = 0 := by linear_combination hd
    have habs : |(g.n : ℝ) - 1| = (g.n : ℝ) - 1 := abs_of_nonneg (by linarith)
    rcases mul_eq_zero.mp hf with h | h
    · rw [show ν = (g.n : ℝ) - 1 by linarith, habs]
    · rw [show ν = (-1 : ℝ) by linarith, habs, abs_neg, abs_one]
      linarith
  · funext i
    rw [completeAdj_mulVec hC _ i]
    simp only [Finset.sum_const, Finset.card_univ, Fintype.card_fin, nsmul_eq_mul,
      Pi.smul_apply, smul_eq_mul]
    ring
  · intro i
    positivity
  · rw [Finset.sum_const, Finset.card_univ, Fintype.card_fin, nsmul_eq_mul]
    rw [inv_pow, hsq]
    field_simp

theorem eigCentProp_complete_unique {g : Network} (hC : Complete g) (hn : 2 ≤ g.n)
    (w : Fin g.n → ℝ) (hw : EigCentProp g w) :
    w = fun _ => (Real.sqrt g.n)⁻¹ := by
  obtain ⟨μ, _hμeig, _hμmax, hAw, hpos, hnorm⟩ := hw
  have hnR : (2 : ℝ) ≤ (g.n : ℝ) := by exact_mod_cast hn
  have i0 : Fin g.n := ⟨0, by omega⟩
  have hsum : ∀ i, (μ + 1) * w i = ∑ k, w k := by
    intro i
    have h1 := congrFun hAw i
    rw [completeAdj_mulVec hC w i] at h1
    have h2 : μ • w i = μ * w i := rfl
    rw [Pi.smul_apply] at h1
    rw [h2] at h1
    linarith
  have hwne : w ≠ 0 := by
    intro h0
    have h1 := congrFun h0 i0
    have h2 := hpos i0
    rw [h1] at h2
    norm_num at h2
  have hspos : 0 < ∑ k, w k :=
    Finset.sum_pos (fun k _ => hpos k) ⟨i0, Finset.mem_univ _⟩
  have hμeq : μ = (g.n : ℝ) - 1 := by
    have hd := eigenvalue_quadratic (adjMatrix_complete_sq hC) ⟨w, hwne, hAw⟩
    have hf : (μ - ((g.n : ℝ) - 1)) * (μ + 1) = 0 := by linear_combination hd
    rcases mul_eq_zero.mp hf with h | h
    · linarith
    · exfalso
      have h1 := hsum i0
      rw [show μ + 1 = 0 by linarith] at h1
      rw [zero_mul] at h1
      linarith
  have hn0 : (g.n : ℝ) ≠ 0 := by linarith
  have hconst : ∀ i, w i = (∑ k, w k) / (g.n : ℝ) := by
    intro i
    have h1 := hsum i
    rw [hμeq] at h1
    field_simp
    linarith
  set c := (∑ k, w k) / (g.n : ℝ) with hc
  have hcpos : 0 < c := by
    have := hconst i0
    rw [← this]
    exact hpos i0
  have hnorm2 : (g.n : ℝ) * c ^ 2 = 1 := by
    have h1 : ∑ i, w i ^ 2 = ∑ _i : Fin g.n, c ^ 2 :=
      Finset.sum_congr rfl (fun i _ => by rw [hconst i])
    rw [h1, Finset.sum_const, Finset.card_univ, Fintype.card_fin, nsmul_eq_mul] at hnorm
    exact hnorm
  have hs : 0 < Real.sqrt g.n := Real.sqrt_pos.mpr (by linarith)
  have hsq : Real.sqrt g.n ^ 2 = (g.n : ℝ) := Real.sq_sqrt (by linarith)
  have hceq : c = (Real.sqrt g.n)⁻¹ := by
    have h2 : c ^ 2 = ((Real.sqrt g.n)⁻¹) ^ 2 := by
      rw [inv_pow, hsq]
      field_simp
      linarith [hnorm2]
    have hfac : (c - (Real.sqrt g.n)⁻¹) * (c + (Real.sqrt g.n)⁻¹) = 0 := by
      linear_combination h2
    rcases mul_eq_zero.mp hfac with h | h
    · linarith
    · exfalso
      have : 0 < (Real.sqrt g.n)⁻¹ := by positivity
      linarith
  funext i
  rw [hconst i]
  exact hceq

theorem eigenvectorCentrality_complete {g : Network} (hC : Complete g) (hn : 2 ≤ g.n) :
    eigenvectorCentrality g = .ok (fun _ => (Real.sqrt g.n)⁻¹) := by
  have hex : ∃! v : Fin g.n → ℝ, EigCentProp g v :=
    ⟨_, eigCentProp_complete_const hC hn,
      fun w hw => eigCentProp_complete_unique hC hn w hw⟩
  unfold eigenvectorCentrality
  rw [dif_pos hex]
  exact congrArg Except.ok
    (eigCentProp_complete_unique hC hn _ (Classical.choose_spec hex.exists))

/-! ## The K5 scenario: claim C8 -/

theorem degreeOf_K5 : ∀ v, degreeOf (completeNetwork 5) v = 4 := by decide

theorem reachCount_K5 : ∀ v, reachCount (completeNetwork 5) v = 5 := by decide

theorem totalDist_K5 : ∀ v, totalDist (completeNetwork 5) v = 4 := by decide

theorem pairDependency_K5 : ∀ v s t, pairDependency (completeNetwork 5) v s t = 0 := by
  decide

theorem closenessCentrality_K5 : ∀ v, closenessCentrality (completeNetwork 5) v = 1 := by
  intro v
  unfold closenessCentrality
  rw [reachCount_K5 v, totalDist_K5 v]
  simp only [show (completeNetwork 5).n = 5 from rfl]
  norm_num

theorem betweennessCentrality_K5 : ∀ v, betweennessCentrality (completeNetwork 5) v = 0 := by
  intro v
  unfold betweennessCentrality
  simp only [pairDependency_K5, Finset.sum_const_zero]
  simp only [show (completeNetwork 5).n = 5 from rfl]
  norm_num

theorem degreeCentrality_K5 : ∀ v, degreeCentrality (completeNetwork 5) v = 1 := by
  intro v
  unfold degreeCentrality
  rw [degreeOf_K5 v]
  simp only [show (completeNetwork 5).n = 5 from rfl]
  norm_num

theorem eigenvectorCentrality_K5 :
    eigenvectorCentrality (completeNetwork 5) = .ok (fun _ => (Real.sqrt 5)⁻¹) := by
  rw [eigenvectorCentrality_complete (completeNetwork_complete 5) (by decide)]
  have h : ((completeNetwork 5).n : ℝ) = 5 := by norm_num [show (completeNetwork 5).n = 5 from rfl]
  rw [h]

theorem graphEnergy_K5 : graphEnergy (completeNetwork 5) = 8 := by
  rw [graphEnergy_complete (completeNetwork_complete 5) (by decide)]
  have h : ((completeNetwork 5).n : ℝ) = 5 := by norm_num [show (completeNetwork 5).n = 5 from rfl]
  rw [h]
  norm_num

/-- **C8.** With `n = 5`, `p = 1.0` and any seed the generator returns the
complete graph `K5`; on it every degree centrality is 1, every closeness
centrality is 1, every betweenness centrality is 0, the eigenvector
centrality is the constant vector `1/sqrt 5` (about 0.4472), and the graph
energy is `2*(n-1) = 8`. -/
theorem completeGraph5_scenario (seed : Nat) :
    erdosRenyiGraph 5 1 seed = completeNetwork 5 ∧
    (∀ v, degreeCentrality (completeNetwork 5) v = 1) ∧
    (∀ v, closenessCentrality (completeNetwork 5) v = 1) ∧
    (∀ v, betweennessCentrality (completeNetwork 5) v = 0) ∧
    eigenvectorCentrality (completeNetwork 5) = .ok (fun _ => (Real.sqrt 5)⁻¹) ∧
    graphEnergy (completeNetwork 5) = 8 :=
  ⟨erdosRenyi_complete (le_refl 1) 5 seed, degreeCentrality_K5, closenessCentrality_K5,
    betweennessCentrality_K5, eigenvectorCentrality_K5, graphEnergy_K5⟩

/-! ## Edgeless graphs: claim C7 -/

theorem omin_none_right : ∀ x : Option Nat, omin x none = x := by
  intro x
  cases x <;> rfl

theorem foldl_omin_all_none (x : Option Nat) :
    ∀ l : List (Option Nat), (∀ y ∈ l, y = none) → l.foldl omin x = x := by
  intro l
  induction l generalizing x with
  | nil => intro _; rfl
  | cons y ys ih =>
    intro h
    have hy : y = none := h y (List.mem_cons_self y ys)
    rw [List.foldl_cons, hy, omin_none_right]
    exact ih x (fun z hz => h z (List.mem_cons_of_mem y hz))

theorem relaxStep_noEdges {g : Network} (h : NoEdges g) (d : Fin g.n → Option Nat) :
    relaxStep g d = d := by
  funext i
  unfold relaxStep
  apply foldl_omin_all_none
  intro y hy
  rcases List.mem_map.mp hy with ⟨j, _, hj⟩
  rw [← hj, h i j]
  simp

theorem spLengths_noEdges {g : Network} (h : NoEdges g) (s : Fin g.n) :
    spLengths g s = fun i => if i = s then some 0 else none := by
  unfold spLengths
  exact Function.iterate_fixed (relaxStep_noEdges h _) g.n

theorem totalDist_noEdges {g : Network} (h : NoEdges g) (s : Fin g.n) :
    totalDist g s = 0 := by
  unfold totalDist
  rw [spLengths_noEdges h s]
  apply Finset.sum_eq_zero
  intro i _
  by_cases hi : i = s <;> simp [hi]

theorem closeness_noEdges {g : Network} (h : NoEdges g) (v : Fin g.n) :
    closenessCentrality g v = 0 := by
  unfold closenessCentrality
  rw [totalDist_noEdges h v]
  simp

theorem pairDependency_noEdges {g : Network} (h : NoEdges g) (v s t : Fin g.n) :
    pairDependency g v s t = 0 := by
  unfold pairDependency
  by_cases hg : s = v ∨ t = v ∨ s = t
  · rw [if_pos hg]
  · rw [if_neg hg]
    have hst : spLengths g s t = none := by
      rw [spLengths_noEdges h s]
      have : t ≠ s := by
        intro heq
        exact hg (Or.inr (Or.inr heq.symm))
      simp [this]
    rw [hst]

theorem betweenness_noEdges {g : Network} (h : NoEdges g) (v : Fin g.n) :
    betweennessCentrality g v = 0 := by
  unfold betweennessCentrality
  have hz : ∑ s, ∑ t, pairDependency g v s t = 0 :=
    Finset.sum_eq_zero fun s _ => Finset.sum_eq_zero fun t _ => pairDependency_noEdges h v s t
  rw [hz]
  by_cases h2 : 2 < g.n <;> simp [h2]

theorem eigCentProp_noEdges_iff {g : Network} (h : NoEdges g) (hn : 2 ≤ g.n)
    (v : Fin g.n → ℝ) :
    EigCentProp g v ↔ ((∀ i, 0 < v i) ∧ ∑ i, v i ^ 2 = 1) := by
  constructor
  · rintro ⟨μ, _, _, _, hpos, hnorm⟩
    exact ⟨hpos, hnorm⟩
  · rintro ⟨hpos, hnorm⟩
    refine ⟨0, ⟨fun _ => 1, ?_, ?_⟩, ?_, ?_, hpos, hnorm⟩
    · intro h0
      have h1 := congrFun h0 ⟨0, by omega⟩
      norm_num at h1
    · rw [adjMatrix_noEdges h, Matrix.zero_mulVec, zero_smul]
    · intro ν hν
      obtain ⟨w, hw, hMw⟩ := hν
      rw [adjMatrix_noEdges h, Matrix.zero_mulVec] at hMw
      rcases smul_eq_zero.mp hMw.symm with h1 | h1
      · simp [h1]
      · exact absurd h1 hw
    · rw [adjMatrix_noEdges h, Matrix.zero_mulVec, zero_smul]

theorem eigenvectorCentrality_noEdges {g : Network} (h : NoEdges g) (hn : 2 ≤ g.n) :
    eigenvectorCentrality g = .error .illDefined := by
  have hnR : (2 : ℝ) ≤ (g.n : ℝ) := by exact_mod_cast hn
  have hn0 : (0 : ℝ) < (g.n : ℝ) := by linarith
  have hs : 0 < Real.sqrt g.n := Real.sqrt_pos.mpr hn0
  have hsq : Real.sqrt g.n ^ 2 = (g.n : ℝ) := Real.sq_sqrt (le_of_lt hn0)
  have hsinv : 0 < (Real.sqrt g.n)⁻¹ := by positivity
  have hinv2 : ((Real.sqrt g.n)⁻¹) ^ 2 = ((g.n : ℝ))⁻¹ := by rw [inv_pow, hsq]
  obtain ⟨i0⟩ : Nonempty (Fin g.n) := ⟨⟨0, by omega⟩⟩
  have harg : (0 : ℝ) < (1 - 1 / (4 * (g.n : ℝ))) / ((g.n : ℝ) - 1) := by
    apply div_pos
    · have h8 : 1 / (4 * (g.n : ℝ)) ≤ 1 / 8 := by
        apply div_le_div_of_nonneg_left <;> linarith
      linarith
    · linarith
  set b : ℝ := Real.sqrt ((1 - 1 / (4 * (g.n : ℝ))) / ((g.n : ℝ) - 1)) with hb
  have hbpos : 0 < b := Real.sqrt_pos.mpr harg
  have hbsq : b ^ 2 = (1 - 1 / (4 * (g.n : ℝ))) / ((g.n : ℝ) - 1) :=
    Real.sq_sqrt (le_of_lt harg)
  have hv1prop : EigCentProp g (fun _ => (Real.sqrt g.n)⁻¹) := by
    rw [eigCentProp_noEdges_iff h hn]
    refine ⟨fun i => hsinv, ?_⟩
    rw [Finset.sum_const, Finset.card_univ, Fintype.card_fin, nsmul_eq_mul, hinv2]
    exact mul_inv_cancel₀ (ne_of_gt hn0)
  have hv2prop : EigCentProp g
      (fun i => if i = i0 then (Real.sqrt g.n)⁻¹ / 2 else b) := by
    rw [eigCentProp_noEdges_iff h hn]
    constructor
    · intro i
      by_cases hi : i = i0
      · rw [if_pos hi]; positivity
      · rw [if_neg hi]; exact hbpos
    · rw [← Finset.add_sum_erase Finset.univ _ (Finset.mem_univ i0)]
      rw [if_pos rfl]
      have hrest : ∑ i ∈ Finset.univ.erase i0,
          (if i = i0 then (Real.sqrt g.n)⁻¹ / 2 else b) ^ 2 =
          ((g.n : ℝ) - 1) * b ^ 2 := by
        rw [Finset.sum_congr rfl (fun i hi => by
          rw [if_neg (Finset.ne_of_mem_erase hi)])]
        rw [Finset.sum_const, Finset.card_erase_of_mem (Finset.mem_univ i0),
          Finset.card_univ, Fintype.card_fin, nsmul_eq_mul]
        have h1 : (1 : ℕ) ≤ g.n := by omega
        push_cast [Nat.cast_sub h1]
        ring
      rw [hrest, hbsq]
      have hne1 : (g.n : ℝ) - 1 ≠ 0 := by linarith
      rw [mul_div_cancel₀ _ hne1, div_pow, hinv2]
      field_simp
      ring
  have hne : (fun _ : Fin g.n => (Real.sqrt g.n)⁻¹) ≠
      (fun i => if i = i0 then (Real.sqrt g.n)⁻¹ / 2 else b) := by
    intro heq
    have h1 := congrFun heq i0
    rw [if_pos rfl] at h1
    linarith
  unfold eigenvectorCentrality
  rw [dif_neg]
  intro hex
  exact hne (hex.unique hv1prop hv2prop)

/-- **C7.** A graph generated with `p = 0` (and at least two nodes) has no
edges; on it closeness and betweenness centrality assign 0 to every node,
while the eigenvector-centrality computation fails with `illDefined`
instead of returning scores. -/
theorem emptyGraph_centralities (n seed : Nat) (hn : 2 ≤ n) :
    NoEdges (erdosRenyiGraph n 0 seed) ∧
    (∀ v, closenessCentrality (erdosRenyiGraph n 0 seed) v = 0) ∧
    (∀ v, betweennessCentrality (erdosRenyiGraph n 0 seed) v = 0) ∧
    eigenvectorCentrality (erdosRenyiGraph n 0 seed) = .error .illDefined := by
  rw [erdosRenyi_empty (le_refl 0) n seed]
  have h := emptyNetwork_noEdges n
  exact ⟨h, fun v => closeness_noEdges h v, fun v => betweenness_noEdges h v,
    eigenvectorCentrality_noEdges h hn⟩

/-- Witness for C7 at `n = 2`, `p = 0`, seed 0. -/
theorem emptyGraph_centralities_witness :
    2 ≤ 2 ∧
    (NoEdges (erdosRenyiGraph 2 0 0) ∧
      (∀ v, closenessCentrality (erdosRenyiGraph 2 0 0) v = 0) ∧
      (∀ v, betweennessCentrality (erdosRenyiGraph 2 0 0) v = 0) ∧
      eigenvectorCentrality (erdosRenyiGraph 2 0 0) = .error .illDefined) :=
  ⟨by decide, emptyGraph_centralities 2 0 (by decide)⟩

/-! ## Pipeline failure analysis and report assembly: claims C10, C6 and C4 -/

theorem except_bind_ok {ε α β : Type} (a : α) (f : α → Except ε β) :
    (Except.ok a >>= f) = f a := rfl

theorem except_bind_error {ε α β : Type} (e : ε) (f : α → Except ε β) :
    ((Except.error e : Except ε α) >>= f) = Except.error e := rfl

theorem eigenvectorCentrality_error {g : Network} {e : PipeError}
    (h : eigenvectorCentrality g = .error e) : e = .illDefined := by
  unfold eigenvectorCentrality at h
  split at h
  · exact absurd h (by simp)
  · injection h with h
    exact h.symm

theorem eigenvectorCentrality_nullGraph {g : Network} (h0 : g.n = 0) :
    eigenvectorCentrality g = .error .illDefined := by
  unfold eigenvectorCentrality
  rw [dif_neg]
  rintro ⟨v, ⟨μ, ⟨w, hw, _⟩, _⟩, _⟩
  apply hw
  funext i
  exact absurd i.2 (by omega)

theorem reportOfGraph_error_cases {g : Network} {e : PipeError}
    (h : reportOfGraph g = .error e) : e = .illDefined ∨ e = .emptySequence := by
  unfold reportOfGraph at h
  cases heig : eigenvectorCentrality g with
  | error e2 =>
    rw [heig, except_bind_error] at h
    injection h with h
    exact Or.inl (h ▸ eigenvectorCentrality_error heig)
  | ok ev =>
    rw [heig, except_bind_ok] at h
    cases hdeg : (List.finRange g.n).map (fun v => degreeOf g v) with
    | nil =>
      simp only [hdeg, pyMin, except_bind_error] at h
      injection h with h
      exact Or.inr h.symm
    | cons x xs =>
      simp only [hdeg, pyMin, pyMax, except_bind_ok] at h
      exact absurd h (by simp [pure, Except.pure])

/-- **C10 (amended).** With `n = 0` the pipeline aborts with the
eigenvector-centrality failure (line 34 precedes the degree-distribution
step of line 39); it neither reports `InvalidParameter` at generation nor
returns a report. -/
theorem analyzeNetwork_nullGraph (p : ℚ) (seed : Nat) :
    analyzeNetwork 0 p seed = .error .illDefined := by
  unfold analyzeNetwork reportOfGraph
  rw [eigenvectorCentrality_nullGraph (rfl : (erdosRenyiGraph 0 p seed).n = 0),
    except_bind_error]

/-- Counterexample for C10 as stated: at `n = 0` the pipeline does not
fail with the empty-sequence `ValueError` of the `min` call in the
degree-distribution step; it fails earlier, at the eigenvector-centrality
call. -/
theorem analyzeNetwork_nullGraph_cex :
    analyzeNetwork 0 (2/25) 42 = Except.error PipeError.illDefined ∧
    analyzeNetwork 0 (2/25) 42 ≠ Except.error PipeError.emptySequence := by
  have h := analyzeNetwork_nullGraph (2/25) 42
  refine ⟨h, ?_⟩
  rw [h]
  simp

/-- **C6 (amended).** Generation performs no input validation: the node
count is always `n`, `p ≤ 0` yields the edgeless graph, `p ≥ 1` the
complete graph, and no run of the pipeline ever produces an
`invalidParameter` error. -/
theorem generation_no_validation (n : Nat) (p : ℚ) (seed : Nat) :
    (erdosRenyiGraph n p seed).n = n ∧
    (p ≤ 0 → NoEdges (erdosRenyiGraph n p seed)) ∧
    (1 ≤ p → Complete (erdosRenyiGraph n p seed)) ∧
    ∀ e, analyzeNetwork n p seed = .error e → e ≠ .invalidParameter := by
  refine ⟨rfl, ?_, ?_, ?_⟩
  · intro hp
    rw [erdosRenyi_empty hp]
    exact emptyNetwork_noEdges n
  · intro hp
    rw [erdosRenyi_complete hp]
    exact completeNetwork_complete n
  · intro e he
    unfold analyzeNetwork at he
    rcases reportOfGraph_error_cases he with h | h <;> simp [h]

/-- Witness for C6 (amended) at `p = 0` and `p = 1`. -/
theorem generation_no_validation_witness :
    ((0 : ℚ) ≤ 0 ∧ NoEdges (erdosRenyiGraph 4 0 9)) ∧
    ((1 : ℚ) ≤ 1 ∧ Complete (erdosRenyiGraph 4 1 9)) ∧
    (erdosRenyiGraph 4 0 9).n = 4 :=
  ⟨⟨le_refl 0, (generation_no_validation 4 0 9).2.1 (le_refl 0)⟩,
   ⟨le_refl 1, (generation_no_validation 4 1 9).2.2.1 (le_refl 1)⟩,
   (generation_no_validation 4 0 9).1⟩

/-- Counterexample for C6 as stated: `p = 2` lies outside `[0, 1]`, yet
the run does not abort with `InvalidParameter` — it completes and returns
a report (the complete graph is generated instead). -/
theorem invalidParameter_policy_cex :
    ((5 : Nat) ≤ 0 ∨ (2 : ℚ) < 0 ∨ 1 < (2 : ℚ)) ∧
    analyzeNetwork 5 2 0 ≠ Except.error PipeError.invalidParameter ∧
    (analyzeNetwork 5 2 0).isOk = true := by
  have hok : (analyzeNetwork 5 2 0).isOk = true := by
    unfold analyzeNetwork
    rw [erdosRenyi_complete (by norm_num) 5 0]
    unfold reportOfGraph
    rw [eigenvectorCentrality_K5, except_bind_ok]
    rfl
  refine ⟨Or.inr (Or.inr (by norm_num)), ?_, hok⟩
  intro hc
  rw [hc] at hok
  exact Bool.noConfusion hok

theorem plotTopk_take_five {α : Type} [LinearOrder α] (l : List (Nat × α)) :
    (plotTopk l 10).take 5 = plotTopk l 5 := by
  simp [plotTopk, List.take_take]

/-- **C4 (amended).** Any successfully assembled report consists of the
top-5 ranking (equal to ranking with `k = 5`) of each of the four
centrality mappings together with the energy scalar; the series drawn in
the spectrum plot consists of the absolute values of the eigenvalues, and
it is not part of the returned report. -/
theorem report_assembly (g : Network) (r : AnalysisReport)
    (h : reportOfGraph g = .ok r) :
    (∃ ev, eigenvectorCentrality g = .ok ev ∧
      r.degree = plotTopk (centItems g (degreeCentrality g)) 5 ∧
      r.closeness = plotTopk (centItems g (closenessCentrality g)) 5 ∧
      r.betweenness = plotTopk (centItems g (betweennessCentrality g)) 5 ∧
      r.eigenvector = plotTopk (centItems g ev) 5) ∧
    r.energy = graphEnergy g ∧
    spectrumSeries g = (eigenvalsMultiset g).map (fun x => |x|) := by
  have hspec : spectrumSeries g = (eigenvalsMultiset g).map (fun x => |x|) := by
    unfold spectrumSeries eigenvalsMultiset
    rw [Multiset.map_map]
    rfl
  unfold reportOfGraph at h
  cases heig : eigenvectorCentrality g with
  | error e2 =>
    rw [heig, except_bind_error] at h
    exact absurd h (by simp)
  | ok ev =>
    rw [heig, except_bind_ok] at h
    cases hdeg : (List.finRange g.n).map (fun v => degreeOf g v) with
    | nil =>
      simp only [hdeg, pyMin, except_bind_error] at h
      exact absurd h (by simp)
    | cons x xs =>
      simp only [hdeg, pyMin, pyMax, except_bind_ok] at h
      have hr : _ = r := Except.ok.inj h
      subst hr
      refine ⟨⟨ev, rfl, ?_, ?_, ?_, ?_⟩, rfl, hspec⟩ <;>
        exact plotTopk_take_five _

/-- Witness for C4 (amended): the successfully assembled report of a K5
run. -/
theorem report_assembly_witness :
    ∃ r, reportOfGraph (completeNetwork 5) = Except.ok r ∧
      ((∃ ev, eigenvectorCentrality (completeNetwork 5) = .ok ev ∧
        r.degree =
          plotTopk (centItems (completeNetwork 5) (degreeCentrality (completeNetwork 5))) 5 ∧
        r.closeness =
          plotTopk (centItems (completeNetwork 5) (closenessCentrality (completeNetwork 5))) 5 ∧
        r.betweenness =
          plotTopk (centItems (completeNetwork 5) (betweennessCentrality (completeNetwork 5))) 5 ∧
        r.eigenvector = plotTopk (centItems (completeNetwork 5) ev) 5) ∧
      r.energy = graphEnergy (completeNetwork 5) ∧
      spectrumSeries (completeNetwork 5) =
        (eigenvalsMultiset (completeNetwork 5)).map (fun x => |x|)) := by
  have hok : ∃ r, reportOfGraph (completeNetwork 5) = Except.ok r := by
    unfold reportOfGraph
    rw [eigenvectorCentrality_K5, except_bind_ok]
    exact ⟨_, rfl⟩
  obtain ⟨r, hr⟩ := hok
  exact ⟨r, hr, report_assembly (completeNetwork 5) r hr⟩

/-- Counterexample for C4 as stated: for K2 the adjacency eigenvalues are
1 and -1, but the values sent to the spectrum plot are the absolute
values {1, 1}; the plotted series is not the eigenvalue sequence. -/
theorem spectrum_plot_cex :
    spectrumSeries (completeNetwork 2) ≠ eigenvalsMultiset (completeNetwork 2) := by
  have hC := completeNetwork_complete 2
  have hcast : ((completeNetwork 2).n : ℝ) = 2 := by
    norm_num [show (completeNetwork 2).n = 2 from rfl]
  have hdich : ∀ j, eigenvals (completeNetwork 2) j = 1 ∨
      eigenvals (completeNetwork 2) j = -1 := by
    intro j
    rcases eigenvals_complete_dichotomy hC j with h | h
    · left
      rw [h, hcast]
      norm_num
    · right
      exact h
  have hsum : eigenvals (completeNetwork 2) (0 : Fin 2) +
      eigenvals (completeNetwork 2) (1 : Fin 2) = 0 := by
    have h := sum_eigenvals_eq_trace (completeNetwork 2)
    rw [adjMatrix_trace] at h
    have h2 : (∑ j : Fin 2, eigenvals (completeNetwork 2) j) =
        eigenvals (completeNetwork 2) (0 : Fin 2) +
          eigenvals (completeNetwork 2) (1 : Fin 2) :=
      Fin.sum_univ_two (fun j : Fin 2 => eigenvals (completeNetwork 2) j)
    rw [← h2]
    exact h
  have hms : eigenvalsMultiset (completeNetwork 2) =
      (eigenvals (completeNetwork 2) (0 : Fin 2) ::ₘ
        eigenvals (completeNetwork 2) (1 : Fin 2) ::ₘ 0) := rfl
  have hss : spectrumSeries (completeNetwork 2) =
      (|eigenvals (completeNetwork 2) (0 : Fin 2)| ::ₘ
        |eigenvals (completeNetwork 2) (1 : Fin 2)| ::ₘ 0) := rfl
  intro heq
  have hmem : (-1 : ℝ) ∈ eigenvalsMultiset (completeNetwork 2) := by
    rcases hdich (0 : Fin 2) with h0 | h0 <;> rcases hdich (1 : Fin 2) with h1 | h1
    · rw [h0, h1] at hsum; norm_num at hsum
    · rw [hms, h1]; simp
    · rw [hms, h0]; simp
    · rw [h0, h1] at hsum; norm_num at hsum
  rw [← heq, hss] at hmem
  have habs0 : |eigenvals (completeNetwork 2) (0 : Fin 2)| = 1 := by
    rcases hdich (0 : Fin 2) with h0 | h0 <;> rw [h0] <;> norm_num
  have habs1 : |eigenvals (completeNetwork 2) (1 : Fin 2)| = 1 := by
    rcases hdich (1 : Fin 2) with h1 | h1 <;> rw [h1] <;> norm_num
  rw [habs0, habs1] at hmem
  have : (-1 : ℝ) = 1 ∨ (-1 : ℝ) = 1 ∨ (-1 : ℝ) ∈ (0 : Multiset ℝ) := by
    simpa [Multiset.mem_cons] using hmem
  rcases this with h | h | h
  · norm_num at h
  · norm_num at h
  · simp at h
